import Mathlib

/-!
A shallow embedding of the Markov-chain headline generator
(`generator.go` of e-dard/headlines) and proofs about it.

Modelling conventions:
* Go strings are lists of characters (`Token`); Go's byte-wise string
  comparison agrees with code-point comparison on UTF-8 data, which is
  what the lexicographic `tokenLt` below computes.
* The byte stream fed to `Build` is a pure `List Char`; read errors
  cannot occur in the pure model, so the error returns of the Go code
  correspond exactly to the `none` results here, which model the
  `panic` branches (`can't find token in Index`, `rand.Intn(n)` with
  `n <= 0`, and out-of-range slice indexing).
* Go `int32` positions are modelled as `Int`; the narrowing
  `int32(i)` performed by `index.Find` is the identity for any corpus
  with fewer than `2^31` distinct tokens, which covers every input a
  `[]string`-backed index can realistically hold.
* The process-global random source (`rand.Intn`) is modelled by an
  oracle `rng : Nat → Nat`; the k-th draw with bound `n > 0` yields
  `rng k % n`, so every possible sequence of in-range draws is
  represented by some oracle.
-/

namespace Headlines

/-- A Go string: a list of characters. -/
abbrev Token := List Char

/-- `const delim = " "`: the delimiter used to separate tokens
(a one-character string in the source, so a single character here). -/
def delim : Char := ' '

/-- Go's string comparison `s < t`: lexicographic, shorter-is-smaller on
equal heads.  On UTF-8 encoded text the byte-wise comparison performed
by Go coincides with this code-point-wise comparison. -/
def tokenLt : Token → Token → Bool
  | [], [] => false
  | [], _ :: _ => true
  | _ :: _, [] => false
  | a :: s, b :: t => if a < b then true else if b < a then false else tokenLt s t

/-- The strict order on tokens as a proposition. -/
abbrev TLt (a b : Token) : Prop := tokenLt a b = true

/-- `sort.SearchStrings(a, x)`: the smallest index `i` with `a[i] >= x`
(`a.length` if there is none).  Go computes this index by binary search,
which is specified (for the monotone predicate `a[i] >= x` that a sorted
slice yields) to return exactly the least index at which the predicate
holds; the linear scan below computes that same least index.  Every call
site keeps its slice sorted. -/
def searchTokens : List Token → Token → Nat
  | [], _ => 0
  | t :: ts, x => if tokenLt t x then searchTokens ts x + 1 else 0

/-- `type index struct { tokens []string }`: a set of tokens kept as a
sorted array. -/
structure index where
  tokens : List Token

/-- `index.Add`: insert `token` if absent.  Mirrors the source: binary
search for the insertion point `i`; append when `i` is past the end;
otherwise insert at `i` (shift the right-hand side up) unless
`tokens[i]` already equals `token`. -/
def index.Add (idx : index) (token : Token) : index :=
  let i := searchTokens idx.tokens token
  if i = idx.tokens.length then ⟨idx.tokens ++ [token]⟩
  else if idx.tokens.getD i [] ≠ token then
    ⟨idx.tokens.take i ++ token :: idx.tokens.drop i⟩
  else idx

/-- `index.Get`: return the token at position `i`.  The source indexes
the slice directly and panics when `i` is out of range; the model
returns `none` for the panic. -/
def index.Get (idx : index) (i : Int) : Option Token :=
  if i < 0 then none else idx.tokens.get? i.toNat

/-- `index.Find`: position of `token`, or `-1` if absent.  Mirrors the
source: search, then return `-1` when the position is past the end or
holds a different token. -/
def index.Find (idx : index) (token : Token) : Int :=
  let i := searchTokens idx.tokens token
  if i = idx.tokens.length then -1
  else if idx.tokens.getD i [] ≠ token then -1
  else (i : Int)

/-- `unicode.IsSpace` restricted to the Latin-1 range, which is what
`strings.TrimSpace` tests for the characters this model can meet. -/
def isSpace (c : Char) : Bool :=
  c == ' ' || c == '\t' || c == '\n' || c == '\x0b' || c == '\x0c' ||
    c == '\r' || c == '\u0085' || c == ' '

/-- `strings.TrimSpace`: remove trailing then leading white space
(the order is immaterial; trailing-first eases reasoning about the
`'\n'` kept by `ReadBytes`). -/
def trimSpace (s : List Char) : List Char :=
  ((s.reverse.dropWhile isSpace).reverse).dropWhile isSpace

/-- `strings.Split(s, sep)` for a one-character separator: the segments
of `s` between occurrences of `sep`.  Always returns one more segment
than there are separators; in particular `Split("", sep) = [""]`. -/
def splitOnChar (sep : Char) : List Char → List (List Char)
  | [] => [[]]
  | c :: s =>
    if c = sep then [] :: splitOnChar sep s
    else
      match splitOnChar sep s with
      | [] => [[c]]
      | l :: ls => (c :: l) :: ls

/-- `strings.Join(ts, delim)`: the tokens concatenated with `delim`
between consecutive ones. -/
def joinTokens : List Token → Token
  | [] => []
  | [t] => t
  | t :: ts => t ++ delim :: joinTokens ts

/-- One line of `processStream`: `strings.Split(strings.TrimSpace(line), delim)`. -/
def tokenize (line : List Char) : List Token :=
  splitOnChar delim (trimSpace line)

/-- The `bufio.ReadBytes('\n')` loop of `processStream`.  `acc` holds
(reversed) the characters of the current line read so far; on `'\n'` the
line, delimiter included, is tokenized, exactly as `ReadBytes` returns
it; at end of input the remaining characters form the final line
(`ReadBytes` returns them together with `io.EOF`, and the loop processes
them before breaking). -/
def readLoop (acc : List Char) : List Char → List (List Token)
  | [] => [tokenize acc.reverse]
  | c :: s =>
    if c = '\n' then tokenize (acc.reverse ++ ['\n']) :: readLoop [] s
    else readLoop (c :: acc) s

/-- `processStream(r, processTokens)`: the sequence of token slices the
callback receives, one per line of the stream.  The pure model returns
the list of callback arguments; the build passes fold their callback
over it.  Read errors other than `io.EOF` cannot arise from a pure
input. -/
def processStream (s : List Char) : List (List Token) :=
  readLoop [] s

/-- `type Chain struct`: the transition map (a total function standing
for the Go map, absent keys reading as the empty slice `nil`), the two
token indexes, the starting-frequency slice `sp`, and the prefix
length. -/
structure Chain where
  chain : Token → List Int
  tokensIdx : index
  sp : List Int
  startingPrefixIdx : index
  prefixLength : Nat

/-- `NewChain(l)`: empty map, zero-valued indexes and slice, prefix
length `l`. -/
def NewChain (l : Nat) : Chain :=
  ⟨fun _ => [], ⟨[]⟩, [], ⟨[]⟩, l⟩

/-- The fold step of `buildTokenIndex`'s callback: add every token of a
line to the token index. -/
def addTokens (idx : index) (tokens : List Token) : index :=
  tokens.foldl index.Add idx

/-- `Chain.buildTokenIndex`: pass 1, add every token of every line to
`tokensIdx`. -/
def buildTokenIndex (c : Chain) (input : List Char) : Chain :=
  ⟨c.chain, (processStream input).foldl addTokens c.tokensIdx,
    c.sp, c.startingPrefixIdx, c.prefixLength⟩

/-- The fold step of `buildPrefixIndex`'s callback: when the line has at
least `prefixLength` tokens, add the join of its first `prefixLength`
tokens to the starting-prefix index. -/
def addStartingPfx (pl : Nat) (idx : index) (tokens : List Token) : index :=
  if pl ≤ tokens.length then idx.Add (joinTokens (tokens.take pl)) else idx

/-- `Chain.buildPrefixIndex`: pass 2, register the starting prefix of
every line with at least `prefixLength` tokens. -/
def buildPrefixIndex (c : Chain) (input : List Char) : Chain :=
  ⟨c.chain, c.tokensIdx, c.sp,
    (processStream input).foldl (addStartingPfx c.prefixLength) c.startingPrefixIdx,
    c.prefixLength⟩

/-- `c.chain[prefix] = append(c.chain[prefix], v)` as a map update. -/
def appendChain (m : Token → List Int) (k : Token) (v : Int) : Token → List Int :=
  fun q => if q = k then m q ++ [v] else m q

/-- One iteration of `buildChain`'s sliding-window loop at offset `i`:
form the prefix `tokens[i:i+prefixLength]` and suffix
`tokens[i+prefixLength]`, resolve the suffix in the token index
(`none` models the `panic("can't find token in Index")` branch), append
it to the chain entry, and when `i == 0` additionally resolve the prefix
in the starting-prefix index (`none` models the second panic) and append
to `sp`. -/
def chainStep (c : Chain) (tokens : List Token) (i : Nat) : Option Chain :=
  let pfx := joinTokens ((tokens.drop i).take c.prefixLength)
  let sfx := tokens.getD (i + c.prefixLength) []
  let sfxI := c.tokensIdx.Find sfx
  if sfxI = -1 then none
  else
    let m := appendChain c.chain pfx sfxI
    if i = 0 then
      let spI := c.startingPrefixIdx.Find pfx
      if spI = -1 then none
      else some ⟨m, c.tokensIdx, c.sp ++ [spI], c.startingPrefixIdx, c.prefixLength⟩
    else some ⟨m, c.tokensIdx, c.sp, c.startingPrefixIdx, c.prefixLength⟩

/-- The loop `for i := 0; i < len(tokens)-prefixLength; i++` of
`buildChain`'s callback, counted down by the number of remaining
iterations (`fuel` starts at `len(tokens) - prefixLength`, matching the
loop bound; Go's `int` subtraction going non-positive and `Nat`
truncated subtraction both run the loop zero times). -/
def chainLoop (tokens : List Token) : Chain → Nat → Nat → Option Chain
  | c, _, 0 => some c
  | c, i, fuel + 1 =>
    match chainStep c tokens i with
    | none => none
    | some c' => chainLoop tokens c' (i + 1) fuel

/-- `buildChain`'s per-line callback `processPhrase`. -/
def processPhrase (c : Chain) (tokens : List Token) : Option Chain :=
  chainLoop tokens c 0 (tokens.length - c.prefixLength)

/-- `buildChain`'s stream fold: run `processPhrase` over the lines in
order, propagating a panic. -/
def buildChainLines : Chain → List (List Token) → Option Chain
  | c, [] => some c
  | c, ts :: rest =>
    match processPhrase c ts with
    | none => none
    | some c' => buildChainLines c' rest

/-- `Chain.buildChain`: pass 3 over the stream. -/
def buildChain (c : Chain) (input : List Char) : Option Chain :=
  buildChainLines c (processStream input)

/-- `Chain.Build`: the `TeeReader`/`MultiWriter` plumbing feeds the very
same bytes to the three passes, so the pure model runs them on the same
input in the source's order: token index, then starting-prefix index,
then the chain. -/
def Build (c : Chain) (input : List Char) : Option Chain :=
  buildChain (buildPrefixIndex (buildTokenIndex c input) input) input

/-- The outcome of `Chain.Generate`: a returned phrase, the explicit
`fmt.Errorf("sentence must begin with at least %d tokens")` error, or a
runtime panic (`rand.Intn` with a non-positive bound, or indexing an
index out of range). -/
inductive GenResult where
  | ok (phrase : Token)
  | error
  | panicked
deriving DecidableEq

/-- The `for len(sentence) < l` loop of `Generate`.  Every iteration
appends exactly one token, so the loop runs `l - len(sentence)` times
unless it breaks on an empty suffix list first; `fuel` counts the
remaining iterations and `k` numbers the `rand.Intn` draws. -/
def genLoop (c : Chain) (rng : Nat → Nat) : Nat → Nat → List Token → Option (List Token)
  | _, 0, sentence => some sentence
  | k, fuel + 1, sentence =>
    let key := joinTokens (sentence.drop (sentence.length - c.prefixLength))
    let sfxsI := c.chain key
    if sfxsI.length = 0 then some sentence
    else
      match c.tokensIdx.Get (sfxsI.getD (rng k % sfxsI.length) 0) with
      | none => none
      | some sfx => genLoop c rng (k + 1) fuel (sentence ++ [sfx])

/-- `Chain.Generate(l)`: draw a starting prefix from `sp`
(`rand.Intn(len(c.sp))` panics when `sp` is empty), split it on the
delimiter, return the explicit error when it has fewer than
`prefixLength` tokens, then extend it with the suffix loop and join. -/
def Generate (c : Chain) (rng : Nat → Nat) (l : Nat) : GenResult :=
  if c.sp.length = 0 then GenResult.panicked
  else
    let i := rng 0 % c.sp.length
    match c.startingPrefixIdx.Get (c.sp.getD i 0) with
    | none => GenResult.panicked
    | some pfx =>
      let sentence := splitOnChar delim pfx
      if sentence.length < c.prefixLength then GenResult.error
      else
        match genLoop c rng 1 (l - sentence.length) sentence with
        | none => GenResult.panicked
        | some s => GenResult.ok (joinTokens s)

/-- One sliding window of a line, as the claims count them: the window
at offset `i` pairs the joined `prefixLength` tokens starting at `i`
with the token following them; `fuel` windows starting at offset `i`. -/
def windowsFrom (pl : Nat) (ts : List Token) : Nat → Nat → List (Token × Token)
  | _, 0 => []
  | i, fuel + 1 =>
    (joinTokens ((ts.drop i).take pl), ts.getD (i + pl) []) :: windowsFrom pl ts (i + 1) fuel

/-- All sliding windows of one line. -/
def lineWindows (pl : Nat) (ts : List Token) : List (Token × Token) :=
  windowsFrom pl ts 0 (ts.length - pl)

/-- All sliding-window occurrences in a corpus, line by line; formalizes
the claims' "sliding-window occurrences in the corpus". -/
def corpusWindows (pl : Nat) (input : List Char) : List (Token × Token) :=
  (processStream input).flatMap (lineWindows pl)

end Headlines

namespace Headlines

/-! ### Splitting and joining -/

theorem splitOnChar_ne_nil (sep : Char) (s : List Char) : splitOnChar sep s ≠ [] := by
  induction s with
  | nil => simp [splitOnChar]
  | cons c s ih =>
    simp only [splitOnChar]
    split
    · simp
    · cases h : splitOnChar sep s with
      | nil => simp
      | cons l ls => simp

theorem splitOnChar_cons_of_ne {sep c : Char} {s : List Char} {l : List Char}
    {ls : List (List Char)} (hc : ¬c = sep) (h : splitOnChar sep s = l :: ls) :
    splitOnChar sep (c :: s) = (c :: l) :: ls := by
  simp only [splitOnChar, if_neg hc, h]

theorem splitOnChar_cons_sep (sep : Char) (s : List Char) :
    splitOnChar sep (sep :: s) = [] :: splitOnChar sep s := by
  simp [splitOnChar]

theorem not_mem_of_mem_splitOnChar {sep : Char} {s : List Char} :
    ∀ l ∈ splitOnChar sep s, sep ∉ l := by
  induction s with
  | nil =>
    intro l hl
    simp only [splitOnChar, List.mem_singleton] at hl
    simp [hl]
  | cons c s ih =>
    intro l hl
    by_cases hc : c = sep
    · subst hc
      rw [splitOnChar_cons_sep] at hl
      rcases List.mem_cons.mp hl with h1 | h1
      · simp [h1]
      · exact ih l h1
    · obtain ⟨m, ms, hsplit⟩ : ∃ m ms, splitOnChar sep s = m :: ms := by
        cases h : splitOnChar sep s with
        | nil => exact absurd h (splitOnChar_ne_nil sep s)
        | cons m ms => exact ⟨m, ms, rfl⟩
      rw [splitOnChar_cons_of_ne hc hsplit] at hl
      rcases List.mem_cons.mp hl with h1 | h1
      · subst h1
        intro hmem
        rcases List.mem_cons.mp hmem with h2 | h2
        · exact hc h2.symm
        · exact ih m (by simp [hsplit]) h2
      · exact ih l (by simp [hsplit, h1])

theorem splitOnChar_of_not_mem {sep : Char} {s : List Char} (h : sep ∉ s) :
    splitOnChar sep s = [s] := by
  induction s with
  | nil => simp [splitOnChar]
  | cons c s ih =>
    have hc : ¬c = sep := fun he => h (by simp [he])
    have hs : sep ∉ s := fun hm => h (by simp [hm])
    exact splitOnChar_cons_of_ne hc (ih hs)

theorem splitOnChar_append_cons {sep : Char} {a : List Char} (b : List Char)
    (h : sep ∉ a) : splitOnChar sep (a ++ sep :: b) = a :: splitOnChar sep b := by
  induction a with
  | nil => simp [splitOnChar]
  | cons c a ih =>
    have hc : ¬c = sep := fun he => h (by simp [he])
    have ha : sep ∉ a := fun hm => h (by simp [hm])
    have := ih ha
    simpa using splitOnChar_cons_of_ne hc this

theorem joinTokens_cons_cons (t u : Token) (ts : List Token) :
    joinTokens (t :: u :: ts) = t ++ delim :: joinTokens (u :: ts) := by
  simp [joinTokens]

theorem splitOnChar_joinTokens : ∀ {ts : List Token}, ts ≠ [] →
    (∀ t ∈ ts, delim ∉ t) → splitOnChar delim (joinTokens ts) = ts
  | [], h, _ => absurd rfl h
  | [t], _, h2 => by
    simp only [joinTokens]
    exact splitOnChar_of_not_mem (h2 t (by simp))
  | t :: u :: ts, _, h2 => by
    rw [joinTokens_cons_cons, splitOnChar_append_cons _ (h2 t (by simp)),
      splitOnChar_joinTokens (by simp) (fun x hx => h2 x (by simp [hx]))]

/-! ### The stream tokenizer -/

theorem isSpace_newline : isSpace '\n' = true := by decide

theorem trimSpace_append_newline (s : List Char) :
    trimSpace (s ++ ['\n']) = trimSpace s := by
  simp [trimSpace, List.dropWhile_cons, isSpace_newline]

theorem tokenize_append_newline (s : List Char) :
    tokenize (s ++ ['\n']) = tokenize s := by
  simp [tokenize, trimSpace_append_newline]

theorem readLoop_eq : ∀ (s acc : List Char), '\n' ∉ acc →
    readLoop acc s = (splitOnChar '\n' (acc.reverse ++ s)).map tokenize
  | [], acc, h => by
    have : '\n' ∉ acc.reverse := by simpa using h
    simp [readLoop, splitOnChar_of_not_mem this]
  | c :: s, acc, h => by
    by_cases hc : c = '\n'
    · subst hc
      rw [show readLoop acc ('\n' :: s) =
        tokenize (acc.reverse ++ ['\n']) :: readLoop [] s from by simp [readLoop]]
      rw [readLoop_eq s [] (by simp)]
      have : '\n' ∉ acc.reverse := by simpa using h
      rw [splitOnChar_append_cons s this]
      simp [tokenize_append_newline]
    · rw [show readLoop acc (c :: s) = readLoop (c :: acc) s from by simp [readLoop, hc]]
      rw [readLoop_eq s (c :: acc)
        (by simp only [List.mem_cons, not_or]; exact ⟨fun he => hc he.symm, h⟩)]
      simp

theorem processStream_eq (s : List Char) :
    processStream s = (splitOnChar '\n' s).map tokenize := by
  simpa using readLoop_eq s [] (by simp)

theorem delim_not_mem_of_token {input : List Char} {ts : List Token} {t : Token}
    (hts : ts ∈ processStream input) (ht : t ∈ ts) : delim ∉ t := by
  rw [processStream_eq] at hts
  rcases List.mem_map.mp hts with ⟨line, _, rfl⟩
  exact not_mem_of_mem_splitOnChar t ht

/-! ### The token order -/

theorem tokenLt_irrefl : ∀ t : Token, tokenLt t t = false
  | [] => rfl
  | c :: s => by simp [tokenLt, tokenLt_irrefl s]

theorem tokenLt_trans : ∀ {a b c : Token},
    tokenLt a b = true → tokenLt b c = true → tokenLt a c = true
  | [], _ :: _, _ :: _, _, _ => rfl
  | [], [], _, h1, _ => by simp [tokenLt] at h1
  | [], _ :: _, [], _, h2 => by simp [tokenLt] at h2
  | _ :: _, [], _, h1, _ => by simp [tokenLt] at h1
  | _ :: _, _ :: _, [], _, h2 => by simp [tokenLt] at h2
  | x :: s, y :: t, z :: u, h1, h2 => by
    simp only [tokenLt] at h1 h2 ⊢
    by_cases hxy : x < y
    · by_cases hyz : y < z
      · simp [lt_trans hxy hyz]
      · have hzy : ¬z < y := by
          intro hzy
          rw [if_neg hyz, if_pos hzy] at h2
          exact Bool.false_ne_true h2
        have heq : y = z := le_antisymm (le_of_not_lt hzy) (le_of_not_lt hyz)
        subst heq
        simp [hxy]
    · have hyx : ¬y < x := by
        intro hyx
        rw [if_neg hxy, if_pos hyx] at h1
        exact Bool.false_ne_true h1
      have heq : x = y := le_antisymm (le_of_not_lt hyx) (le_of_not_lt hxy)
      subst heq
      rw [if_neg hxy, if_neg hxy] at h1
      by_cases hxz : x < z
      · simp [hxz]
      · have hzx : ¬z < x := by
          intro hzx
          rw [if_neg hxz, if_pos hzx] at h2
          exact Bool.false_ne_true h2
        rw [if_neg hxz, if_neg hzx] at h2 ⊢
        exact tokenLt_trans h1 h2

theorem eq_of_not_tokenLt : ∀ {a b : Token},
    tokenLt a b = false → tokenLt b a = false → a = b
  | [], [], _, _ => rfl
  | [], _ :: _, h1, _ => by simp [tokenLt] at h1
  | _ :: _, [], _, h2 => by simp [tokenLt] at h2
  | x :: s, y :: t, h1, h2 => by
    simp only [tokenLt] at h1 h2
    by_cases hxy : x < y
    · simp [hxy] at h1
    · by_cases hyx : y < x
      · simp [hyx] at h2
      · have heq : x = y := le_antisymm (le_of_not_lt hyx) (le_of_not_lt hxy)
        subst heq
        rw [if_neg hxy, if_neg hxy] at h1 h2
        rw [eq_of_not_tokenLt h1 h2]

theorem tokenLt_asymm {a b : Token} (h : tokenLt a b = true) : tokenLt b a = false := by
  cases hc : tokenLt b a with
  | false => rfl
  | true =>
    have := tokenLt_trans h hc
    rw [tokenLt_irrefl] at this
    exact absurd this (by simp)

theorem TLt_ne {a b : Token} (h : TLt a b) : a ≠ b := by
  intro he
  subst he
  have : tokenLt a a = true := h
  rw [tokenLt_irrefl] at this
  exact absurd this (by simp)

/-! ### Binary search -/

theorem searchTokens_le_length : ∀ (l : List Token) (x : Token),
    searchTokens l x ≤ l.length
  | [], _ => Nat.le_refl 0
  | t :: ts, x => by
    simp only [searchTokens]
    split
    · exact Nat.succ_le_succ (searchTokens_le_length ts x)
    · exact Nat.zero_le _

theorem searchTokens_take {l : List Token} {x : Token} :
    ∀ y ∈ l.take (searchTokens l x), tokenLt y x = true := by
  induction l with
  | nil => simp [searchTokens]
  | cons t ts ih =>
    simp only [searchTokens]
    split_ifs with hlt
    · intro y hy
      rw [List.take_succ_cons] at hy
      rcases List.mem_cons.mp hy with h | h
      · rw [h]; exact hlt
      · exact ih y h
    · simp

theorem searchTokens_getD {l : List Token} {x : Token}
    (h : searchTokens l x < l.length) :
    tokenLt (l.getD (searchTokens l x) []) x = false := by
  induction l with
  | nil => simp [searchTokens] at h
  | cons t ts ih =>
    simp only [searchTokens] at h ⊢
    split_ifs with hlt
    · rw [if_pos hlt] at h
      rw [List.getD_cons_succ]
      exact ih (Nat.lt_of_succ_lt_succ (by simpa using h))
    · rw [List.getD_cons_zero]
      simpa using hlt

theorem searchTokens_of_mem : ∀ {l : List Token} {x : Token},
    l.Pairwise TLt → x ∈ l →
    searchTokens l x < l.length ∧ l.getD (searchTokens l x) [] = x := by
  intro l
  induction l with
  | nil => intro x _ hx; simp at hx
  | cons t ts ih =>
    intro x hp hx
    simp only [searchTokens]
    by_cases hlt : tokenLt t x = true
    · have hxts : x ∈ ts := by
        rcases List.mem_cons.mp hx with h | h
        · subst h; rw [tokenLt_irrefl] at hlt; exact absurd hlt (by simp)
        · exact h
      obtain ⟨h1, h2⟩ := ih hp.of_cons hxts
      rw [if_pos hlt]
      exact ⟨Nat.succ_lt_succ h1, by simpa using h2⟩
    · rw [if_neg hlt]
      rcases List.mem_cons.mp hx with h | h
      · exact ⟨Nat.succ_pos _, by simp [h]⟩
      · have : TLt t x := (List.pairwise_cons.mp hp).1 x h
        exact absurd this hlt

/-! ### index.Find -/

theorem Find_of_mem {idx : index} {x : Token} (hp : idx.tokens.Pairwise TLt)
    (hx : x ∈ idx.tokens) :
    idx.Find x = (searchTokens idx.tokens x : Int) ∧
    idx.tokens.get? (searchTokens idx.tokens x) = some x := by
  obtain ⟨hlen, hget⟩ := searchTokens_of_mem hp hx
  constructor
  · unfold index.Find
    rw [if_neg (Nat.ne_of_lt hlen), if_neg (not_not_intro hget)]
  · rw [List.get?_eq_get hlen]
    rw [List.getD_eq_getElem idx.tokens [] hlen] at hget
    simpa using hget

theorem Find_nonneg_of_mem {idx : index} {x : Token} (hp : idx.tokens.Pairwise TLt)
    (hx : x ∈ idx.tokens) : 0 ≤ idx.Find x := by
  rw [(Find_of_mem hp hx).1]
  exact Int.ofNat_nonneg _

theorem Get_Find_of_mem {idx : index} {x : Token} (hp : idx.tokens.Pairwise TLt)
    (hx : x ∈ idx.tokens) : idx.Get (idx.Find x) = some x := by
  obtain ⟨h1, h2⟩ := Find_of_mem hp hx
  unfold index.Get
  rw [h1, if_neg (by simp)]
  simpa using h2

theorem Find_of_not_mem {idx : index} {x : Token} (hx : x ∉ idx.tokens) :
    idx.Find x = -1 := by
  unfold index.Find
  by_cases h : searchTokens idx.tokens x = idx.tokens.length
  · rw [if_pos h]
  · have hlt := lt_of_le_of_ne (searchTokens_le_length idx.tokens x) h
    have hmem : idx.tokens.getD (searchTokens idx.tokens x) [] ∈ idx.tokens := by
      rw [List.getD_eq_getElem idx.tokens [] hlt]
      exact List.getElem_mem hlt
    have hne : idx.tokens.getD (searchTokens idx.tokens x) [] ≠ x := by
      intro he
      exact hx (he ▸ hmem)
    rw [if_neg h, if_pos hne]

theorem Find_inj {idx : index} {x y : Token} (hp : idx.tokens.Pairwise TLt)
    (hx : x ∈ idx.tokens) (hy : y ∈ idx.tokens) (h : idx.Find x = idx.Find y) :
    x = y := by
  have h1 := Get_Find_of_mem hp hx
  have h2 := Get_Find_of_mem hp hy
  rw [h] at h1
  rw [h1] at h2
  exact Option.some.inj h2

/-! ### index.Add -/

theorem mem_Add {idx : index} {x y : Token} :
    y ∈ (idx.Add x).tokens ↔ y ∈ idx.tokens ∨ y = x := by
  unfold index.Add
  by_cases h1 : searchTokens idx.tokens x = idx.tokens.length
  · rw [if_pos h1]
    simp
  · rw [if_neg h1]
    by_cases h2 : idx.tokens.getD (searchTokens idx.tokens x) [] ≠ x
    · rw [if_pos h2]
      show y ∈ _ ++ x :: _ ↔ _
      simp only [List.mem_append, List.mem_cons]
      have hsplit := List.take_append_drop (searchTokens idx.tokens x) idx.tokens
      constructor
      · rintro (h | h | h)
        · exact Or.inl (by rw [← hsplit]; exact List.mem_append_left _ h)
        · exact Or.inr h
        · exact Or.inl (by rw [← hsplit]; exact List.mem_append_right _ h)
      · rintro (h | rfl)
        · rcases List.mem_append.mp (by rw [hsplit]; exact h) with h' | h'
          · exact Or.inl h'
          · exact Or.inr (Or.inr h')
        · exact Or.inr (Or.inl rfl)
    · rw [if_neg h2]
      push_neg at h2
      constructor
      · exact Or.inl
      · rintro (h | rfl)
        · exact h
        · have hlt := lt_of_le_of_ne (searchTokens_le_length idx.tokens y) h1
          rw [← h2]
          rw [List.getD_eq_getElem idx.tokens [] hlt]
          exact List.getElem_mem hlt

theorem mem_Add_self {idx : index} {x : Token} : x ∈ (idx.Add x).tokens :=
  mem_Add.mpr (Or.inr rfl)

theorem mem_Add_of_mem {idx : index} {x y : Token} (h : y ∈ idx.tokens) :
    y ∈ (idx.Add x).tokens :=
  mem_Add.mpr (Or.inl h)

theorem pairwise_Add {idx : index} {x : Token} (hp : idx.tokens.Pairwise TLt) :
    (idx.Add x).tokens.Pairwise TLt := by
  unfold index.Add
  by_cases h1 : searchTokens idx.tokens x = idx.tokens.length
  · rw [if_pos h1]
    show (_ ++ [x]).Pairwise TLt
    refine List.pairwise_append.mpr ⟨hp, List.pairwise_singleton _ _, ?_⟩
    intro y hy z hz
    rw [List.mem_singleton] at hz
    subst hz
    have hy' : y ∈ idx.tokens.take (searchTokens idx.tokens z) := by
      rw [h1, List.take_length]
      exact hy
    exact searchTokens_take y hy'
  · rw [if_neg h1]
    by_cases h2 : idx.tokens.getD (searchTokens idx.tokens x) [] ≠ x
    · rw [if_pos h2]
      have hlt := lt_of_le_of_ne (searchTokens_le_length idx.tokens x) h1
      have hsplit := List.take_append_drop (searchTokens idx.tokens x) idx.tokens
      have hp' : (idx.tokens.take (searchTokens idx.tokens x) ++
          idx.tokens.drop (searchTokens idx.tokens x)).Pairwise TLt := by
        rw [hsplit]; exact hp
      rw [List.pairwise_append] at hp'
      obtain ⟨hpt, hpd, hcross⟩ := hp'
      -- the head of the dropped part is strictly above x
      have hhead : TLt x (idx.tokens.getD (searchTokens idx.tokens x) []) := by
        have hf := searchTokens_getD hlt
        cases hxg : tokenLt x (idx.tokens.getD (searchTokens idx.tokens x) []) with
        | true => exact hxg
        | false => exact absurd (eq_of_not_tokenLt hf hxg) h2
      have hdrop : idx.tokens.drop (searchTokens idx.tokens x) =
          idx.tokens.getD (searchTokens idx.tokens x) [] ::
            idx.tokens.drop (searchTokens idx.tokens x + 1) := by
        rw [List.drop_eq_getElem_cons hlt, List.getD_eq_getElem idx.tokens [] hlt]
      show (_ ++ x :: _).Pairwise TLt
      refine List.pairwise_append.mpr ⟨hpt, ?_, ?_⟩
      · refine List.pairwise_cons.mpr ⟨?_, hpd⟩
        intro y hy
        rw [hdrop] at hy
        rcases List.mem_cons.mp hy with rfl | hy'
        · exact hhead
        · have hgy : TLt (idx.tokens.getD (searchTokens idx.tokens x) []) y := by
            rw [hdrop] at hpd
            exact (List.pairwise_cons.mp hpd).1 y hy'
          exact tokenLt_trans hhead hgy
      · intro y hy z hz
        rcases List.mem_cons.mp hz with rfl | hz'
        · exact searchTokens_take y hy
        · exact hcross y hy z hz'
    · rw [if_neg h2]
      exact hp

theorem nodup_of_pairwise {l : List Token} (hp : l.Pairwise TLt) : l.Nodup :=
  hp.imp TLt_ne

/-! ### Folding Add over lines -/

theorem mem_foldl_Add_of_mem : ∀ {ts : List Token} {idx : index} {y : Token},
    y ∈ idx.tokens → y ∈ (ts.foldl index.Add idx).tokens
  | [], _, _, h => h
  | _ :: ts, _, _, h => @mem_foldl_Add_of_mem ts _ _ (mem_Add_of_mem h)

theorem mem_foldl_Add_self : ∀ {ts : List Token} {idx : index} {t : Token},
    t ∈ ts → t ∈ (ts.foldl index.Add idx).tokens := by
  intro ts
  induction ts with
  | nil => intro idx t h; simp at h
  | cons u ts ih =>
    intro idx t h
    rw [List.foldl_cons]
    rcases List.mem_cons.mp h with rfl | h'
    · exact mem_foldl_Add_of_mem mem_Add_self
    · exact ih h'

theorem mem_foldl_Add_iff : ∀ {ts : List Token} {idx : index} {y : Token},
    y ∈ (ts.foldl index.Add idx).tokens ↔ y ∈ idx.tokens ∨ y ∈ ts := by
  intro ts
  induction ts with
  | nil => intro idx y; simp
  | cons u ts ih =>
    intro idx y
    rw [List.foldl_cons, ih, mem_Add]
    constructor
    · rintro ((h | rfl) | h)
      · exact Or.inl h
      · exact Or.inr (by simp)
      · exact Or.inr (by simp [h])
    · rintro (h | h)
      · exact Or.inl (Or.inl h)
      · rcases List.mem_cons.mp h with rfl | h'
        · exact Or.inl (Or.inr rfl)
        · exact Or.inr h'

theorem pairwise_foldl_Add : ∀ {ts : List Token} {idx : index},
    idx.tokens.Pairwise TLt → (ts.foldl index.Add idx).tokens.Pairwise TLt
  | [], _, h => h
  | _ :: ts, _, h => @pairwise_foldl_Add ts _ (pairwise_Add h)

theorem mem_foldl_addTokens_of_mem :
    ∀ {lines : List (List Token)} {idx : index} {y : Token},
    y ∈ idx.tokens → y ∈ (lines.foldl addTokens idx).tokens
  | [], _, _, h => h
  | _ :: lines, _, _, h =>
    @mem_foldl_addTokens_of_mem lines _ _ (mem_foldl_Add_of_mem h)

theorem mem_foldl_addTokens : ∀ {lines : List (List Token)} {idx : index}
    {ts : List Token} {t : Token}, ts ∈ lines → t ∈ ts →
    t ∈ (lines.foldl addTokens idx).tokens := by
  intro lines
  induction lines with
  | nil => intro idx ts t h; simp at h
  | cons l ls ih =>
    intro idx ts t hts ht
    rw [List.foldl_cons]
    rcases List.mem_cons.mp hts with rfl | h'
    · exact mem_foldl_addTokens_of_mem (mem_foldl_Add_self ht)
    · exact ih h' ht

theorem pairwise_foldl_addTokens : ∀ {lines : List (List Token)} {idx : index},
    idx.tokens.Pairwise TLt → (lines.foldl addTokens idx).tokens.Pairwise TLt
  | [], _, h => h
  | _ :: lines, _, h =>
    @pairwise_foldl_addTokens lines _ (pairwise_foldl_Add h)

theorem mem_foldl_addPfx_of_mem :
    ∀ {lines : List (List Token)} {pl : Nat} {idx : index} {y : Token},
    y ∈ idx.tokens → y ∈ (lines.foldl (addStartingPfx pl) idx).tokens := by
  intro lines
  induction lines with
  | nil => intro pl idx y h; exact h
  | cons l ls ih =>
    intro pl idx y h
    rw [List.foldl_cons]
    apply ih
    unfold addStartingPfx
    split
    · exact mem_Add_of_mem h
    · exact h

theorem mem_foldl_addPfx : ∀ {lines : List (List Token)} {pl : Nat} {idx : index}
    {ts : List Token}, ts ∈ lines → pl ≤ ts.length →
    joinTokens (ts.take pl) ∈ (lines.foldl (addStartingPfx pl) idx).tokens := by
  intro lines
  induction lines with
  | nil => intro pl idx ts h; simp at h
  | cons l ls ih =>
    intro pl idx ts hts hlen
    rcases List.mem_cons.mp hts with rfl | h'
    · rw [List.foldl_cons]
      apply mem_foldl_addPfx_of_mem
      unfold addStartingPfx
      rw [if_pos hlen]
      exact mem_Add_self
    · exact ih h' hlen

theorem pairwise_foldl_addPfx : ∀ {lines : List (List Token)} {pl : Nat} {idx : index},
    idx.tokens.Pairwise TLt →
    (lines.foldl (addStartingPfx pl) idx).tokens.Pairwise TLt := by
  intro lines
  induction lines with
  | nil => intro pl idx h; exact h
  | cons l ls ih =>
    intro pl idx h
    rw [List.foldl_cons]
    apply ih
    unfold addStartingPfx
    split
    · exact pairwise_Add h
    · exact h

/-! ### The final build pass -/

theorem Find_ne_neg_one {idx : index} {x : Token} (hp : idx.tokens.Pairwise TLt)
    (hx : x ∈ idx.tokens) : idx.Find x ≠ -1 := by
  have h := Find_nonneg_of_mem hp hx
  intro he
  rw [he] at h
  norm_num at h

theorem chainStep_spec {c : Chain} {ts : List Token} {i : Nat}
    (hpT : c.tokensIdx.tokens.Pairwise TLt)
    (hpS : c.startingPrefixIdx.tokens.Pairwise TLt)
    (hsfxT : ts.getD (i + c.prefixLength) [] ∈ c.tokensIdx.tokens)
    (hpfxS : i = 0 →
      joinTokens ((ts.drop i).take c.prefixLength) ∈ c.startingPrefixIdx.tokens) :
    chainStep c ts i = some
      ⟨appendChain c.chain (joinTokens ((ts.drop i).take c.prefixLength))
          (c.tokensIdx.Find (ts.getD (i + c.prefixLength) [])),
        c.tokensIdx,
        c.sp ++ (if i = 0 then
          [c.startingPrefixIdx.Find (joinTokens ((ts.drop i).take c.prefixLength))]
          else []),
        c.startingPrefixIdx, c.prefixLength⟩ := by
  unfold chainStep
  rw [if_neg (Find_ne_neg_one hpT hsfxT)]
  by_cases hi : i = 0
  · rw [if_pos hi, if_neg (Find_ne_neg_one hpS (hpfxS hi)), if_pos hi]
  · rw [if_neg hi, if_neg hi]
    simp

theorem chainLoop_spec :
    ∀ (fuel : Nat) (ts : List Token) (i : Nat) (c : Chain),
    c.tokensIdx.tokens.Pairwise TLt →
    c.startingPrefixIdx.tokens.Pairwise TLt →
    (∀ t ∈ ts, t ∈ c.tokensIdx.tokens) →
    (c.prefixLength < ts.length →
      joinTokens (ts.take c.prefixLength) ∈ c.startingPrefixIdx.tokens) →
    i + fuel ≤ ts.length - c.prefixLength →
    ∃ c', chainLoop ts c i fuel = some c' ∧
      c'.tokensIdx = c.tokensIdx ∧
      c'.startingPrefixIdx = c.startingPrefixIdx ∧
      c'.prefixLength = c.prefixLength ∧
      c'.sp = c.sp ++ (if i = 0 ∧ 0 < fuel then
        [c.startingPrefixIdx.Find (joinTokens (ts.take c.prefixLength))] else []) ∧
      ∀ p, c'.chain p = c.chain p ++
        ((windowsFrom c.prefixLength ts i fuel).filter (fun w => w.1 = p)).map
          (fun w => c.tokensIdx.Find w.2)
  | 0, ts, i, c, _, _, _, _, _ =>
    ⟨c, rfl, rfl, rfl, rfl, by simp, by simp [windowsFrom]⟩
  | fuel + 1, ts, i, c, hpT, hpS, hT, hS, hb => by
    have hlt : i < ts.length - c.prefixLength := by omega
    have hip : i + c.prefixLength < ts.length := by omega
    have hplen : c.prefixLength < ts.length := by omega
    have hsfx_mem : ts.getD (i + c.prefixLength) [] ∈ ts := by
      rw [List.getD_eq_getElem ts [] hip]
      exact List.getElem_mem hip
    have hpfxS : i = 0 →
        joinTokens ((ts.drop i).take c.prefixLength) ∈ c.startingPrefixIdx.tokens := by
      intro hi
      subst hi
      rw [List.drop_zero]
      exact hS hplen
    have step := chainStep_spec hpT hpS (hT _ hsfx_mem) hpfxS
    obtain ⟨c', hrun, hT', hS', hpl', hsp', hch'⟩ :=
      chainLoop_spec fuel ts (i + 1)
        ⟨appendChain c.chain (joinTokens ((ts.drop i).take c.prefixLength))
            (c.tokensIdx.Find (ts.getD (i + c.prefixLength) [])),
          c.tokensIdx,
          c.sp ++ (if i = 0 then
            [c.startingPrefixIdx.Find (joinTokens ((ts.drop i).take c.prefixLength))]
            else []),
          c.startingPrefixIdx, c.prefixLength⟩
        hpT hpS hT hS
        (by show i + 1 + fuel ≤ ts.length - c.prefixLength; omega)
    refine ⟨c', ?_, hT', hS', hpl', ?_, ?_⟩
    · rw [chainLoop, step]
      exact hrun
    · rw [hsp', if_neg (by omega : ¬(i + 1 = 0 ∧ 0 < fuel))]
      by_cases hi : i = 0
      · subst hi
        simp [List.drop_zero]
      · simp [hi]
    · intro p
      rw [hch' p]
      rw [show windowsFrom c.prefixLength ts i (fuel + 1) =
        (joinTokens ((ts.drop i).take c.prefixLength), ts.getD (i + c.prefixLength) []) ::
          windowsFrom c.prefixLength ts (i + 1) fuel from rfl]
      rw [List.filter_cons]
      by_cases hkey : joinTokens ((ts.drop i).take c.prefixLength) = p
      · subst hkey
        simp [appendChain, List.append_assoc]
      · have hkey' : ¬p = joinTokens ((ts.drop i).take c.prefixLength) :=
          fun he => hkey he.symm
        simp [appendChain, hkey, hkey']

theorem buildChainLines_spec :
    ∀ (lines : List (List Token)) (c : Chain),
    c.tokensIdx.tokens.Pairwise TLt →
    c.startingPrefixIdx.tokens.Pairwise TLt →
    (∀ ts ∈ lines, ∀ t ∈ ts, t ∈ c.tokensIdx.tokens) →
    (∀ ts ∈ lines, c.prefixLength < ts.length →
      joinTokens (ts.take c.prefixLength) ∈ c.startingPrefixIdx.tokens) →
    ∃ c', buildChainLines c lines = some c' ∧
      c'.tokensIdx = c.tokensIdx ∧
      c'.startingPrefixIdx = c.startingPrefixIdx ∧
      c'.prefixLength = c.prefixLength ∧
      c'.sp = c.sp ++ lines.filterMap (fun ts =>
        if c.prefixLength < ts.length then
          some (c.startingPrefixIdx.Find (joinTokens (ts.take c.prefixLength)))
        else none) ∧
      ∀ p, c'.chain p = c.chain p ++
        ((lines.flatMap (lineWindows c.prefixLength)).filter (fun w => w.1 = p)).map
          (fun w => c.tokensIdx.Find w.2)
  | [], c, _, _, _, _ => ⟨c, rfl, rfl, rfl, rfl, by simp, by simp⟩
  | ts :: rest, c, hpT, hpS, hT, hS => by
    obtain ⟨c1, hrun1, hT1, hS1, hpl1, hsp1, hch1⟩ :=
      chainLoop_spec (ts.length - c.prefixLength) ts 0 c hpT hpS
        (hT ts (by simp)) (hS ts (by simp)) (by omega)
    obtain ⟨c', hrun, hT', hS', hpl', hsp', hch'⟩ :=
      buildChainLines_spec rest c1 (by rw [hT1]; exact hpT) (by rw [hS1]; exact hpS)
        (by rw [hT1]; exact fun u hu => hT u (by simp [hu]))
        (by rw [hS1, hpl1]; exact fun u hu => hS u (by simp [hu]))
    refine ⟨c', ?_, by rw [hT', hT1], by rw [hS', hS1], by rw [hpl', hpl1], ?_, ?_⟩
    · show buildChainLines c (ts :: rest) = some c'
      rw [buildChainLines]
      unfold processPhrase
      rw [hrun1]
      exact hrun
    · rw [hsp', hsp1, hpl1, hS1]
      rw [List.filterMap_cons]
      by_cases hlen : c.prefixLength < ts.length
      · rw [if_pos hlen, if_pos (by omega : (0 = 0 ∧ 0 < ts.length - c.prefixLength))]
        simp [List.append_assoc]
      · rw [if_neg hlen, if_neg (by omega : ¬(0 = 0 ∧ 0 < ts.length - c.prefixLength))]
        simp
    · intro p
      rw [hch' p, hch1 p, hT1, hpl1]
      rw [List.flatMap_cons, List.filter_append, List.map_append, List.append_assoc]
      rfl

theorem Build_spec (c : Chain) (input : List Char)
    (hpT : c.tokensIdx.tokens.Pairwise TLt)
    (hpS : c.startingPrefixIdx.tokens.Pairwise TLt) :
    ∃ c', Build c input = some c' ∧
      c'.tokensIdx = (buildTokenIndex c input).tokensIdx ∧
      c'.startingPrefixIdx = (buildPrefixIndex c input).startingPrefixIdx ∧
      c'.prefixLength = c.prefixLength ∧
      c'.sp = c.sp ++ (processStream input).filterMap (fun ts =>
        if c.prefixLength < ts.length then
          some ((buildPrefixIndex c input).startingPrefixIdx.Find
            (joinTokens (ts.take c.prefixLength)))
        else none) ∧
      ∀ p, c'.chain p = c.chain p ++
        ((corpusWindows c.prefixLength input).filter (fun w => w.1 = p)).map
          (fun w => (buildTokenIndex c input).tokensIdx.Find w.2) := by
  obtain ⟨c', hrun, hT', hS', hpl', hsp', hch'⟩ :=
    buildChainLines_spec (processStream input)
      (buildPrefixIndex (buildTokenIndex c input) input)
      (pairwise_foldl_addTokens hpT) (pairwise_foldl_addPfx hpS)
      (fun ts hts t ht => mem_foldl_addTokens hts ht)
      (fun ts hts hlen => mem_foldl_addPfx hts (Nat.le_of_lt hlen))
  exact ⟨c', hrun, hT', hS', hpl', hsp', hch'⟩

/-! ### Windows -/

theorem windowsFrom_snd_mem : ∀ {pl : Nat} {ts : List Token} (fuel i : Nat),
    i + fuel ≤ ts.length - pl → ∀ w ∈ windowsFrom pl ts i fuel, w.2 ∈ ts := by
  intro pl ts fuel
  induction fuel with
  | zero => intro i _ w hw; simp [windowsFrom] at hw
  | succ fuel ih =>
    intro i hb w hw
    rw [show windowsFrom pl ts i (fuel + 1) =
      (joinTokens ((ts.drop i).take pl), ts.getD (i + pl) []) ::
        windowsFrom pl ts (i + 1) fuel from rfl] at hw
    rcases List.mem_cons.mp hw with rfl | hw'
    · have hip : i + pl < ts.length := by omega
      show ts.getD (i + pl) [] ∈ ts
      rw [List.getD_eq_getElem ts [] hip]
      exact List.getElem_mem hip
    · exact ih (i + 1) (by omega) w hw'

theorem lineWindows_snd_mem {pl : Nat} {ts : List Token} {w : Token × Token}
    (hw : w ∈ lineWindows pl ts) : w.2 ∈ ts :=
  windowsFrom_snd_mem (ts.length - pl) 0 (by omega) w hw

theorem corpusWindows_snd_mem {pl : Nat} {input : List Char} {w : Token × Token}
    (hw : w ∈ corpusWindows pl input) : ∃ ts ∈ processStream input, w.2 ∈ ts := by
  rcases List.mem_flatMap.mp hw with ⟨ts, hts, hw'⟩
  exact ⟨ts, hts, lineWindows_snd_mem hw'⟩

/-! ### Generation -/

theorem genLoop_spec (c : Chain) (rng : Nat → Nat)
    (hvalid : ∀ p v, v ∈ c.chain p → ∃ s, c.tokensIdx.Get v = some s ∧ delim ∉ s) :
    ∀ (fuel k : Nat) (sentence : List Token), (∀ t ∈ sentence, delim ∉ t) →
    ∃ out, genLoop c rng k fuel sentence = some out ∧
      sentence.length ≤ out.length ∧
      out.length ≤ sentence.length + fuel ∧
      (∀ t ∈ out, delim ∉ t) ∧
      (sentence ≠ [] → out ≠ [])
  | 0, _, sentence, hs =>
    ⟨sentence, rfl, Nat.le_refl _, by omega, hs, fun h => h⟩
  | fuel + 1, k, sentence, hs => by
    by_cases hempty :
        (c.chain (joinTokens (sentence.drop (sentence.length - c.prefixLength)))).length = 0
    · exact ⟨sentence, by rw [genLoop, if_pos hempty], Nat.le_refl _, by omega, hs,
        fun h => h⟩
    · have hlen : 0 < (c.chain
          (joinTokens (sentence.drop (sentence.length - c.prefixLength)))).length :=
        Nat.pos_of_ne_zero hempty
      have hi : rng k % (c.chain
          (joinTokens (sentence.drop (sentence.length - c.prefixLength)))).length <
          (c.chain (joinTokens (sentence.drop (sentence.length - c.prefixLength)))).length :=
        Nat.mod_lt _ hlen
      have hvmem : (c.chain (joinTokens (sentence.drop (sentence.length - c.prefixLength)))).getD
          (rng k % (c.chain (joinTokens (sentence.drop (sentence.length - c.prefixLength)))).length) 0 ∈
          c.chain (joinTokens (sentence.drop (sentence.length - c.prefixLength))) := by
        rw [List.getD_eq_getElem _ 0 hi]
        exact List.getElem_mem hi
      obtain ⟨s, hget, hsfree⟩ := hvalid _ _ hvmem
      obtain ⟨out, hrun, h1, h2, h3, _⟩ := genLoop_spec c rng hvalid fuel (k + 1)
        (sentence ++ [s]) (by
          intro t ht
          rcases List.mem_append.mp ht with h | h
          · exact hs t h
          · rw [List.mem_singleton] at h
            subst h
            exact hsfree)
      refine ⟨out, ?_, ?_, ?_, h3, ?_⟩
      · rw [genLoop, if_neg hempty, hget]
        exact hrun
      · have : (sentence ++ [s]).length = sentence.length + 1 := by simp
        omega
      · have : (sentence ++ [s]).length = sentence.length + 1 := by simp
        omega
      · intro _
        intro hout
        rw [hout] at h1
        simp at h1

theorem Generate_empty_sp (c : Chain) (rng : Nat → Nat) (l : Nat) (h : c.sp = []) :
    Generate c rng l = GenResult.panicked := by
  unfold Generate
  rw [if_pos (by simp [h])]

theorem Generate_ok (c : Chain) (rng : Nat → Nat) (l : Nat)
    (hlen0 : c.sp.length ≠ 0)
    (hq : ∀ v ∈ c.sp, ∃ q, c.startingPrefixIdx.Get v = some q ∧
      (splitOnChar delim q).length = c.prefixLength ∧
      ∀ t ∈ splitOnChar delim q, delim ∉ t)
    (hvalid : ∀ p v, v ∈ c.chain p → ∃ s, c.tokensIdx.Get v = some s ∧ delim ∉ s) :
    ∃ phrase, Generate c rng l = GenResult.ok phrase ∧
      c.prefixLength ≤ (splitOnChar delim phrase).length ∧
      (splitOnChar delim phrase).length ≤ max c.prefixLength l := by
  have hmod : rng 0 % c.sp.length < c.sp.length :=
    Nat.mod_lt _ (Nat.pos_of_ne_zero hlen0)
  have hmem : c.sp.getD (rng 0 % c.sp.length) 0 ∈ c.sp := by
    rw [List.getD_eq_getElem _ 0 hmod]
    exact List.getElem_mem hmod
  obtain ⟨q, hget, hqlen, hqfree⟩ := hq _ hmem
  obtain ⟨out, hrun, h1, h2, h3, h4⟩ := genLoop_spec c rng hvalid
    (l - (splitOnChar delim q).length) 1 (splitOnChar delim q) hqfree
  have hout_ne : out ≠ [] := h4 (splitOnChar_ne_nil delim q)
  have hsplit_out : splitOnChar delim (joinTokens out) = out :=
    splitOnChar_joinTokens hout_ne h3
  refine ⟨joinTokens out, ?_, ?_, ?_⟩
  · unfold Generate
    rw [if_neg hlen0]
    show (match c.startingPrefixIdx.Get (c.sp.getD (rng 0 % c.sp.length) 0) with
      | none => GenResult.panicked
      | some pfx =>
        if (splitOnChar delim pfx).length < c.prefixLength then GenResult.error
        else match genLoop c rng 1 (l - (splitOnChar delim pfx).length)
            (splitOnChar delim pfx) with
          | none => GenResult.panicked
          | some s => GenResult.ok (joinTokens s)) = GenResult.ok (joinTokens out)
    rw [hget]
    show (if (splitOnChar delim q).length < c.prefixLength then GenResult.error
      else match genLoop c rng 1 (l - (splitOnChar delim q).length) (splitOnChar delim q) with
        | none => GenResult.panicked
        | some s => GenResult.ok (joinTokens s)) = GenResult.ok (joinTokens out)
    rw [if_neg (by omega : ¬(splitOnChar delim q).length < c.prefixLength), hrun]
  · rw [hsplit_out]
    omega
  · rw [hsplit_out]
    rcases Nat.le_total c.prefixLength l with h | h
    · rw [Nat.max_eq_right h]
      omega
    · rw [Nat.max_eq_left h]
      omega

theorem Generate_ne_error (c : Chain) (rng : Nat → Nat) (l : Nat)
    (hq : ∀ v ∈ c.sp, ∃ q, c.startingPrefixIdx.Get v = some q ∧
      (splitOnChar delim q).length = c.prefixLength) :
    Generate c rng l ≠ GenResult.error := by
  unfold Generate
  by_cases hlen0 : c.sp.length = 0
  · rw [if_pos hlen0]
    simp
  · rw [if_neg hlen0]
    have hmod : rng 0 % c.sp.length < c.sp.length :=
      Nat.mod_lt _ (Nat.pos_of_ne_zero hlen0)
    have hmem : c.sp.getD (rng 0 % c.sp.length) 0 ∈ c.sp := by
      rw [List.getD_eq_getElem _ 0 hmod]
      exact List.getElem_mem hmod
    obtain ⟨q, hget, hqlen⟩ := hq _ hmem
    show (match c.startingPrefixIdx.Get (c.sp.getD (rng 0 % c.sp.length) 0) with
      | none => GenResult.panicked
      | some pfx =>
        if (splitOnChar delim pfx).length < c.prefixLength then GenResult.error
        else match genLoop c rng 1 (l - (splitOnChar delim pfx).length)
            (splitOnChar delim pfx) with
          | none => GenResult.panicked
          | some s => GenResult.ok (joinTokens s)) ≠ GenResult.error
    rw [hget]
    show (if (splitOnChar delim q).length < c.prefixLength then GenResult.error
      else match genLoop c rng 1 (l - (splitOnChar delim q).length) (splitOnChar delim q) with
        | none => GenResult.panicked
        | some s => GenResult.ok (joinTokens s)) ≠ GenResult.error
    rw [if_neg (by omega : ¬(splitOnChar delim q).length < c.prefixLength)]
    cases hg : genLoop c rng 1 (l - (splitOnChar delim q).length) (splitOnChar delim q) with
    | none => simp
    | some s => simp

/-! ### Freshly built chains -/

theorem Build_fresh (pl : Nat) (input : List Char) {c' : Chain}
    (hb : Build (NewChain pl) input = some c') :
    c'.prefixLength = pl ∧
    c'.tokensIdx = (buildTokenIndex (NewChain pl) input).tokensIdx ∧
    c'.startingPrefixIdx = (buildPrefixIndex (NewChain pl) input).startingPrefixIdx ∧
    c'.sp = (processStream input).filterMap (fun ts =>
      if pl < ts.length then
        some ((buildPrefixIndex (NewChain pl) input).startingPrefixIdx.Find
          (joinTokens (ts.take pl)))
      else none) ∧
    ∀ p, c'.chain p = ((corpusWindows pl input).filter (fun w => w.1 = p)).map
      (fun w => (buildTokenIndex (NewChain pl) input).tokensIdx.Find w.2) := by
  obtain ⟨c'', hb'', hT, hS, hpl, hsp, hch⟩ :=
    Build_spec (NewChain pl) input List.Pairwise.nil List.Pairwise.nil
  rw [hb] at hb''
  injection hb'' with he
  subst he
  refine ⟨hpl, hT, hS, by simpa using hsp, fun p => by simpa using hch p⟩

theorem built_sp_valid {pl : Nat} {input : List Char} {c' : Chain}
    (hb : Build (NewChain pl) input = some c') (hpl : 1 ≤ pl) :
    ∀ v ∈ c'.sp, ∃ q, c'.startingPrefixIdx.Get v = some q ∧
      (splitOnChar delim q).length = pl ∧ ∀ t ∈ splitOnChar delim q, delim ∉ t := by
  obtain ⟨hpl', hT, hS, hsp, hch⟩ := Build_fresh pl input hb
  intro v hv
  rw [hsp] at hv
  rcases List.mem_filterMap.mp hv with ⟨ts, hts, hf⟩
  by_cases hlen : pl < ts.length
  · rw [if_pos hlen] at hf
    have hf' := Option.some.inj hf
    have hreg : joinTokens (ts.take pl) ∈
        (buildPrefixIndex (NewChain pl) input).startingPrefixIdx.tokens :=
      mem_foldl_addPfx hts (Nat.le_of_lt hlen)
    have hget := Get_Find_of_mem (pairwise_foldl_addPfx List.Pairwise.nil) hreg
    have htake_free : ∀ t ∈ ts.take pl, delim ∉ t :=
      fun t ht => delim_not_mem_of_token hts (List.take_subset pl ts ht)
    have htake_len : (ts.take pl).length = pl := by
      rw [List.length_take]
      exact min_eq_left (Nat.le_of_lt hlen)
    have htake_ne : ts.take pl ≠ [] := by
      intro he
      rw [he] at htake_len
      simp at htake_len
      omega
    have hsplit : splitOnChar delim (joinTokens (ts.take pl)) = ts.take pl :=
      splitOnChar_joinTokens htake_ne htake_free
    refine ⟨joinTokens (ts.take pl), ?_, ?_, ?_⟩
    · rw [hS, ← hf']
      exact hget
    · rw [hsplit]
      exact htake_len
    · rw [hsplit]
      exact htake_free
  · rw [if_neg hlen] at hf
    exact absurd hf (by simp)

theorem built_chain_valid {pl : Nat} {input : List Char} {c' : Chain}
    (hb : Build (NewChain pl) input = some c') :
    ∀ p v, v ∈ c'.chain p → ∃ s, c'.tokensIdx.Get v = some s ∧ delim ∉ s := by
  obtain ⟨hpl', hT, hS, hsp, hch⟩ := Build_fresh pl input hb
  intro p v hv
  rw [hch p] at hv
  rcases List.mem_map.mp hv with ⟨w, hw, rfl⟩
  have hwmem : w ∈ corpusWindows pl input := List.mem_of_mem_filter hw
  obtain ⟨ts, hts, hsnd⟩ := corpusWindows_snd_mem hwmem
  have hmemT : w.2 ∈ (buildTokenIndex (NewChain pl) input).tokensIdx.tokens :=
    mem_foldl_addTokens hts hsnd
  refine ⟨w.2, ?_, delim_not_mem_of_token hts hsnd⟩
  rw [hT]
  exact Get_Find_of_mem (pairwise_foldl_addTokens List.Pairwise.nil) hmemT

/-! ### Build only appends -/

theorem appendChain_extends (m : Token → List Int) (k : Token) (v : Int) (p : Token) :
    ∃ r, appendChain m k v p = m p ++ r := by
  unfold appendChain
  by_cases h : p = k
  · exact ⟨[v], by rw [if_pos h]⟩
  · exact ⟨[], by rw [if_neg h]; simp⟩

theorem chainStep_extends {c c1 : Chain} {ts : List Token} {i : Nat}
    (h : chainStep c ts i = some c1) :
    c1.tokensIdx = c.tokensIdx ∧ c1.startingPrefixIdx = c.startingPrefixIdx ∧
    c1.prefixLength = c.prefixLength ∧
    (∃ r, c1.sp = c.sp ++ r) ∧ ∀ p, ∃ r, c1.chain p = c.chain p ++ r := by
  simp only [chainStep] at h
  split at h
  · exact absurd h (by simp)
  · split at h
    · split at h
      · exact absurd h (by simp)
      · injection h with he
        subst he
        exact ⟨rfl, rfl, rfl, ⟨_, rfl⟩, fun p => appendChain_extends c.chain _ _ p⟩
    · injection h with he
      subst he
      exact ⟨rfl, rfl, rfl, ⟨[], by simp⟩, fun p => appendChain_extends c.chain _ _ p⟩

theorem chainLoop_extends : ∀ {fuel : Nat} {ts : List Token} {i : Nat} {c c' : Chain},
    chainLoop ts c i fuel = some c' →
    c'.tokensIdx = c.tokensIdx ∧ c'.startingPrefixIdx = c.startingPrefixIdx ∧
    c'.prefixLength = c.prefixLength ∧
    (∃ r, c'.sp = c.sp ++ r) ∧ ∀ p, ∃ r, c'.chain p = c.chain p ++ r := by
  intro fuel
  induction fuel with
  | zero =>
    intro ts i c c' h
    rw [chainLoop] at h
    injection h with he
    subst he
    exact ⟨rfl, rfl, rfl, ⟨[], by simp⟩, fun p => ⟨[], by simp⟩⟩
  | succ fuel ih =>
    intro ts i c c' h
    rw [chainLoop] at h
    cases hs : chainStep c ts i with
    | none => rw [hs] at h; exact absurd h (by simp)
    | some c1 =>
      rw [hs] at h
      have h' : chainLoop ts c1 (i + 1) fuel = some c' := h
      obtain ⟨hT1, hS1, hpl1, ⟨r1, hr1⟩, hch1⟩ := chainStep_extends hs
      obtain ⟨hT2, hS2, hpl2, ⟨r2, hr2⟩, hch2⟩ := ih h'
      refine ⟨hT2.trans hT1, hS2.trans hS1, hpl2.trans hpl1,
        ⟨r1 ++ r2, by rw [hr2, hr1, List.append_assoc]⟩, fun p => ?_⟩
      obtain ⟨s1, hs1⟩ := hch1 p
      obtain ⟨s2, hs2⟩ := hch2 p
      exact ⟨s1 ++ s2, by rw [hs2, hs1, List.append_assoc]⟩

theorem buildChainLines_extends : ∀ {lines : List (List Token)} {c c' : Chain},
    buildChainLines c lines = some c' →
    c'.tokensIdx = c.tokensIdx ∧ c'.startingPrefixIdx = c.startingPrefixIdx ∧
    c'.prefixLength = c.prefixLength ∧
    (∃ r, c'.sp = c.sp ++ r) ∧ ∀ p, ∃ r, c'.chain p = c.chain p ++ r := by
  intro lines
  induction lines with
  | nil =>
    intro c c' h
    rw [buildChainLines] at h
    injection h with he
    subst he
    exact ⟨rfl, rfl, rfl, ⟨[], by simp⟩, fun p => ⟨[], by simp⟩⟩
  | cons ts rest ih =>
    intro c c' h
    rw [buildChainLines] at h
    cases hs : processPhrase c ts with
    | none => rw [hs] at h; exact absurd h (by simp)
    | some c1 =>
      rw [hs] at h
      have h' : buildChainLines c1 rest = some c' := h
      obtain ⟨hT1, hS1, hpl1, ⟨r1, hr1⟩, hch1⟩ := chainLoop_extends hs
      obtain ⟨hT2, hS2, hpl2, ⟨r2, hr2⟩, hch2⟩ := ih h'
      refine ⟨hT2.trans hT1, hS2.trans hS1, hpl2.trans hpl1,
        ⟨r1 ++ r2, by rw [hr2, hr1, List.append_assoc]⟩, fun p => ?_⟩
      obtain ⟨s1, hs1⟩ := hch1 p
      obtain ⟨s2, hs2⟩ := hch2 p
      exact ⟨s1 ++ s2, by rw [hs2, hs1, List.append_assoc]⟩

/-! ### Counting helpers -/

theorem filterMap_if_eq_map_filter {α β : Type} (p : α → Prop) [DecidablePred p]
    (f : α → β) :
    ∀ l : List α, (l.filterMap (fun a => if p a then some (f a) else none)) =
      (l.filter (fun a => p a)).map f := by
  intro l
  induction l with
  | nil => simp
  | cons a l ih =>
    rw [List.filterMap_cons, List.filter_cons]
    by_cases hp : p a
    · rw [if_pos hp, if_pos (by simpa using hp), List.map_cons, ih]
    · rw [if_neg hp, if_neg (by simpa using hp), ih]

theorem forall₂_map_filter {α β : Type} (p : α → Prop) [DecidablePred p] (f : α → β)
    (R : β → α → Prop) :
    ∀ l : List α, (∀ a ∈ l, p a → R (f a) a) →
      List.Forall₂ R ((l.filter (fun a => p a)).map f) (l.filter (fun a => p a)) := by
  intro l
  induction l with
  | nil => intro _; simp
  | cons a l ih =>
    intro h
    rw [List.filter_cons]
    by_cases hp : p a
    · rw [if_pos (by simpa using hp), List.map_cons]
      exact List.Forall₂.cons (h a (by simp) hp)
        (ih (fun b hb hpb => h b (by simp [hb]) hpb))
    · rw [if_neg (by simpa using hp)]
      exact ih (fun b hb hpb => h b (by simp [hb]) hpb)

/-! ### The claims -/

/-- C7: `processStream` invokes the per-line callback exactly once per
newline-delimited line (the final line needs no trailing newline and may be
empty); each line is trimmed of leading/trailing whitespace and split on
single ASCII spaces, so consecutive spaces yield empty-string tokens and an
empty final line tokenizes to a single empty-string token. -/
theorem C7_processStream_contract :
    (∀ s : List Char, processStream s = (splitOnChar '\n' s).map tokenize) ∧
    tokenize [] = [[]] ∧
    tokenize ('a' :: ' ' :: ' ' :: 'b' :: []) = (('a' :: []) :: [] :: ('b' :: []) :: []) ∧
    processStream ('a' :: '\n' :: []) = ((('a' :: []) :: []) :: ([] :: []) :: []) :=
  ⟨processStream_eq, by decide, by decide, by decide⟩

/-- C4: during the final build pass, every suffix lookup and every `i = 0`
prefix lookup succeeds, so the two panic branches are unreachable whenever
the three passes read identical bytes — which the model's `Build` does by
construction, mirroring the TeeReader/MultiWriter duplication.  Hence
`Build` returns a chain (never `none`, the panic outcome), from any chain
whose two indexes are sorted, as every reachable chain's are. -/
theorem C4_build_lookups_succeed (c : Chain) (input : List Char)
    (hpT : c.tokensIdx.tokens.Pairwise TLt)
    (hpS : c.startingPrefixIdx.tokens.Pairwise TLt) :
    ∃ c', Build c input = some c' := by
  obtain ⟨c', h, _⟩ := Build_spec c input hpT hpS
  exact ⟨c', h⟩

/-- Witness for C4 at a concrete corpus. -/
theorem C4_witness :
    ∃ c', Build (NewChain 2) ('a' :: ' ' :: 'b' :: ' ' :: 'c' :: []) = some c' :=
  C4_build_lookups_succeed (NewChain 2) ('a' :: ' ' :: 'b' :: ' ' :: 'c' :: [])
    List.Pairwise.nil List.Pairwise.nil

/-- C5: folding any finite sequence of `Add` calls over the empty index
leaves the token sequence strictly sorted with no duplicates; `Find` returns
the correct position (non-negative, and reading the sequence back at it
yields the token) for every token that was added, and `-1` for any token
never added. -/
theorem C5_index_add_spec (ts : List Token) :
    (ts.foldl index.Add ⟨[]⟩).tokens.Pairwise TLt ∧
    (ts.foldl index.Add ⟨[]⟩).tokens.Nodup ∧
    (∀ t ∈ ts, 0 ≤ (ts.foldl index.Add ⟨[]⟩).Find t ∧
      (ts.foldl index.Add ⟨[]⟩).tokens.get?
        ((ts.foldl index.Add ⟨[]⟩).Find t).toNat = some t) ∧
    ∀ t, t ∉ ts → (ts.foldl index.Add ⟨[]⟩).Find t = -1 := by
  have hpair : (ts.foldl index.Add ⟨[]⟩).tokens.Pairwise TLt :=
    pairwise_foldl_Add List.Pairwise.nil
  refine ⟨hpair, nodup_of_pairwise hpair, ?_, ?_⟩
  · intro t ht
    have hmem : t ∈ (ts.foldl index.Add ⟨[]⟩).tokens := mem_foldl_Add_self ht
    obtain ⟨h1, h2⟩ := Find_of_mem hpair hmem
    refine ⟨Find_nonneg_of_mem hpair hmem, ?_⟩
    rw [h1]
    simpa using h2
  · intro t ht
    apply Find_of_not_mem
    intro hmem
    rcases mem_foldl_Add_iff.mp hmem with h | h
    · simp at h
    · exact ht h

/-- Witness for C5 at a concrete Add sequence with a repeated token. -/
theorem C5_witness :
    0 ≤ ((('b' :: []) :: ('a' :: []) :: ('b' :: []) :: []).foldl index.Add ⟨[]⟩).Find
      ('a' :: []) ∧
    ((('b' :: []) :: ('a' :: []) :: ('b' :: []) :: []).foldl index.Add ⟨[]⟩).tokens.get?
      (((('b' :: []) :: ('a' :: []) :: ('b' :: []) :: []).foldl index.Add
        ⟨[]⟩).Find ('a' :: [])).toNat = some ('a' :: []) ∧
    ((('b' :: []) :: ('a' :: []) :: ('b' :: []) :: []).foldl index.Add ⟨[]⟩).Find
      ('c' :: []) = -1 :=
  ⟨((C5_index_add_spec (('b' :: []) :: ('a' :: []) :: ('b' :: []) :: [])).2.2.1
      ('a' :: []) (by decide)).1,
   ((C5_index_add_spec (('b' :: []) :: ('a' :: []) :: ('b' :: []) :: [])).2.2.1
      ('a' :: []) (by decide)).2,
   (C5_index_add_spec (('b' :: []) :: ('a' :: []) :: ('b' :: []) :: [])).2.2.2
      ('c' :: []) (by decide)⟩

/-- C8: on a strictly sorted index, reading the token at any valid position
and looking it up again returns the same position: `Find (Get p) = p`. -/
theorem C8_find_get_roundtrip (idx : index) (p : Nat)
    (hp : idx.tokens.Pairwise TLt) (hlen : p < idx.tokens.length) :
    ∃ t, idx.Get (p : Int) = some t ∧ idx.Find t = (p : Int) := by
  have hget : idx.Get (p : Int) = some (idx.tokens.get ⟨p, hlen⟩) := by
    unfold index.Get
    rw [if_neg (by omega), Int.toNat_ofNat]
    exact List.get?_eq_get hlen
  refine ⟨idx.tokens.get ⟨p, hlen⟩, hget, ?_⟩
  have hmem : idx.tokens.get ⟨p, hlen⟩ ∈ idx.tokens := List.get_mem idx.tokens p hlen
  obtain ⟨h1, h2⟩ := Find_of_mem hp hmem
  have hslt := (searchTokens_of_mem hp hmem).1
  rw [List.get?_eq_get hslt] at h2
  have heq := Option.some.inj h2
  have hfin : (⟨searchTokens idx.tokens (idx.tokens.get ⟨p, hlen⟩), hslt⟩ :
      Fin idx.tokens.length) = ⟨p, hlen⟩ :=
    ((nodup_of_pairwise hp).get_inj_iff).mp heq
  have hval : searchTokens idx.tokens (idx.tokens.get ⟨p, hlen⟩) = p :=
    congrArg Fin.val hfin
  rw [h1, hval]

/-- Witness for C8 at a concrete two-token index, position 1. -/
theorem C8_witness :
    (index.mk (('a' :: []) :: ('b' :: []) :: [])).Get (1 : Int) = some ('b' :: []) ∧
    (index.mk (('a' :: []) :: ('b' :: []) :: [])).Find ('b' :: []) = (1 : Int) := by
  obtain ⟨t, h1, h2⟩ := C8_find_get_roundtrip (index.mk (('a' :: []) :: ('b' :: []) :: []))
    1 (by decide) (by decide)
  have ht : t = 'b' :: [] := by
    have h3 : (index.mk (('a' :: []) :: ('b' :: []) :: [])).Get ((1 : Nat) : Int) =
        some ('b' :: []) := by decide
    rw [h1] at h3
    exact Option.some.inj h3
  subst ht
  exact ⟨h1, h2⟩

/-- C1 fails as stated: with prefix length 2 and the one-line corpus `"a"`
(no line has at least 2 tokens, so the starting-frequency list is empty),
`Generate` hits `rand.Intn(0)` and panics; it does not return an error. -/
theorem C1_counterexample :
    (Build (NewChain 2) ('a' :: [])).map (fun c => Generate c (fun _ => 0) 5) =
      some GenResult.panicked ∧ GenResult.panicked ≠ GenResult.error :=
  ⟨by decide, by decide⟩

/-- C1 amended: calling `Generate` on a chain built from a corpus with no
line of at least `prefixLength` tokens panics (the model's panic outcome,
from `rand.Intn` with bound 0); it never reaches the explicit-error
branch. -/
theorem C1_amended_generate_panics (pl : Nat) (input : List Char) (c' : Chain)
    (hb : Build (NewChain pl) input = some c')
    (hshort : ∀ ts ∈ processStream input, ts.length < pl)
    (rng : Nat → Nat) (l : Nat) :
    Generate c' rng l = GenResult.panicked := by
  apply Generate_empty_sp
  obtain ⟨hpl', hT, hS, hsp, hch⟩ := Build_fresh pl input hb
  rw [hsp, List.filterMap_eq_nil_iff]
  intro ts hts
  rw [if_neg (by have := hshort ts hts; omega)]

/-- Witness for the amended C1 at the concrete corpus `"a"`. -/
theorem C1_witness :
    (Build (NewChain 2) ('a' :: [])).map (fun c' => Generate c' (fun _ => 0) 5) =
      some GenResult.panicked := by
  have h1 : (Build (NewChain 2) ('a' :: [])).isSome = true := by rfl
  have hb := (Option.some_get h1).symm
  rw [hb]
  show some (Generate ((Build (NewChain 2) ('a' :: [])).get h1) (fun _ => 0) 5) =
    some GenResult.panicked
  rw [C1_amended_generate_panics 2 ('a' :: []) ((Build (NewChain 2) ('a' :: [])).get h1)
    hb (by decide) (fun _ => 0) 5]

/-- C2 fails as stated: with prefix length 2 and the one-line corpus
`"a b"`, the line has exactly 2 >= prefixLength tokens and registers the
starting prefix `"a b"`, yet the final pass loop `i < len(tokens) -
prefixLength` runs zero times, so `sp` stays empty instead of holding one
entry for that line. -/
theorem C2_counterexample :
    (Build (NewChain 2) ('a' :: ' ' :: 'b' :: [])).map Chain.sp = some [] ∧
    ((processStream ('a' :: ' ' :: 'b' :: [])).filter
      (fun ts => 2 ≤ ts.length)).length = 1 ∧
    (Build (NewChain 2) ('a' :: ' ' :: 'b' :: [])).map
      (fun c => c.startingPrefixIdx.tokens) = some (('a' :: ' ' :: 'b' :: []) :: []) :=
  ⟨by decide, by decide, by decide⟩

/-- C2 amended: after `Build`, `sp` holds exactly one entry — the
starting-prefix index position of the line's first `prefixLength` tokens —
for every corpus line with STRICTLY MORE than `prefixLength` tokens, in
corpus order; a line with exactly `prefixLength` tokens registers its prefix
but contributes no entry.  Repetition still encodes frequency: a registered
starting prefix's position occurs once per such line beginning with it. -/
theorem C2_amended_sp_characterization (pl : Nat) (input : List Char) (c' : Chain)
    (hb : Build (NewChain pl) input = some c') :
    List.Forall₂ (fun v ts => c'.startingPrefixIdx.Get v =
        some (joinTokens (ts.take pl)))
      c'.sp ((processStream input).filter (fun ts => pl < ts.length)) ∧
    ∀ q ∈ c'.startingPrefixIdx.tokens,
      c'.sp.count (c'.startingPrefixIdx.Find q) =
        ((processStream input).filter
          (fun ts => pl < ts.length ∧ joinTokens (ts.take pl) = q)).length := by
  obtain ⟨hpl', hT, hS, hsp, hch⟩ := Build_fresh pl input hb
  have hSpair : (buildPrefixIndex (NewChain pl) input).startingPrefixIdx.tokens.Pairwise
      TLt := pairwise_foldl_addPfx List.Pairwise.nil
  have hsp' : c'.sp = ((processStream input).filter (fun ts => pl < ts.length)).map
      (fun ts => (buildPrefixIndex (NewChain pl) input).startingPrefixIdx.Find
        (joinTokens (ts.take pl))) := by
    rw [hsp]
    exact filterMap_if_eq_map_filter (fun ts => pl < ts.length) _ (processStream input)
  constructor
  · rw [hsp', hS]
    apply forall₂_map_filter
    intro ts hts hlen
    exact Get_Find_of_mem hSpair (mem_foldl_addPfx hts (Nat.le_of_lt hlen))
  · intro q hq
    rw [hS] at hq
    rw [hsp', hS]
    rw [List.count_eq_countP, List.countP_map, List.countP_eq_length_filter,
      List.filter_filter]
    congr 1
    apply List.filter_congr
    intro ts hts
    by_cases hlen : pl < ts.length
    · have hreg : joinTokens (ts.take pl) ∈
          (buildPrefixIndex (NewChain pl) input).startingPrefixIdx.tokens :=
        mem_foldl_addPfx hts (Nat.le_of_lt hlen)
      by_cases hjq : joinTokens (ts.take pl) = q
      · simp [hlen, hjq]
      · have hne : (buildPrefixIndex (NewChain pl) input).startingPrefixIdx.Find
            (joinTokens (ts.take pl)) ≠
            (buildPrefixIndex (NewChain pl) input).startingPrefixIdx.Find q :=
          fun he => hjq (Find_inj hSpair hreg hq he)
        simp [hlen, hjq, hne]
    · simp [hlen]

/-- Witness for the amended C2: corpus `"a b c"`, prefix length 2, the
registered starting prefix `"a b"` occurs once in `sp`. -/
theorem C2_witness :
    (Build (NewChain 2) ('a' :: ' ' :: 'b' :: ' ' :: 'c' :: [])).map
      (fun c => c.sp.count (c.startingPrefixIdx.Find ('a' :: ' ' :: 'b' :: []))) =
      some 1 := by
  have hb : Build (NewChain 2) ('a' :: ' ' :: 'b' :: ' ' :: 'c' :: []) =
      some ((Build (NewChain 2) ('a' :: ' ' :: 'b' :: ' ' :: 'c' :: [])).get (by rfl)) :=
    (Option.some_get (by rfl)).symm
  have hcount := (C2_amended_sp_characterization 2 ('a' :: ' ' :: 'b' :: ' ' :: 'c' :: [])
    ((Build (NewChain 2) ('a' :: ' ' :: 'b' :: ' ' :: 'c' :: [])).get (by rfl)) hb).2
    ('a' :: ' ' :: 'b' :: []) (by decide)
  rw [hb]
  show some (((Build (NewChain 2) ('a' :: ' ' :: 'b' :: ' ' :: 'c' :: [])).get
      (by rfl)).sp.count
    (((Build (NewChain 2) ('a' :: ' ' :: 'b' :: ' ' :: 'c' :: [])).get
      (by rfl)).startingPrefixIdx.Find ('a' :: ' ' :: 'b' :: []))) = some 1
  rw [hcount]
  decide

/-- C3 fails as stated: on the chain built from `"a b c"` with prefix
length 2, `Generate 0` returns the phrase `"a b"` with 2 tokens, exceeding
the requested maximum of 0 — the loop is skipped whenever the seeded
sentence already has `maxLength` or more tokens, so the result can exceed
`maxLength` when `maxLength < prefixLength`. -/
theorem C3_counterexample :
    (Build (NewChain 2) ('a' :: ' ' :: 'b' :: ' ' :: 'c' :: [])).map
      (fun c => Generate c (fun _ => 0) 0) =
      some (GenResult.ok ('a' :: ' ' :: 'b' :: [])) ∧
    (splitOnChar delim ('a' :: ' ' :: 'b' :: [])).length = 2 ∧ ¬(2 ≤ 0) :=
  ⟨by decide, by decide, by decide⟩

/-- C3 amended: on a built chain with a non-empty starting-frequency list,
`Generate maxLength` returns a phrase whose token count lies between
`prefixLength` and `max prefixLength maxLength`; it never exceeds
`maxLength` whenever `maxLength ≥ prefixLength`, but returns exactly
`prefixLength` tokens (exceeding `maxLength`) when `maxLength <
prefixLength`. -/
theorem C3_amended_generate_bounds (pl : Nat) (input : List Char) (c' : Chain)
    (hb : Build (NewChain pl) input = some c') (hpl : 1 ≤ pl) (hsp : c'.sp ≠ [])
    (rng : Nat → Nat) (l : Nat) :
    ∃ phrase, Generate c' rng l = GenResult.ok phrase ∧
      pl ≤ (splitOnChar delim phrase).length ∧
      (splitOnChar delim phrase).length ≤ max pl l := by
  have hq := built_sp_valid hb hpl
  have hvalid := built_chain_valid hb
  have hpl' : c'.prefixLength = pl := (Build_fresh pl input hb).1
  have hlen0 : c'.sp.length ≠ 0 := fun h => hsp (List.length_eq_zero.mp h)
  obtain ⟨phrase, h1, h2, h3⟩ := Generate_ok c' rng l hlen0
    (fun v hv => by
      obtain ⟨q, ha, hc, hd⟩ := hq v hv
      exact ⟨q, ha, by rw [hpl']; exact hc, hd⟩) hvalid
  rw [hpl'] at h2 h3
  exact ⟨phrase, h1, h2, h3⟩

/-- Witness for the amended C3: corpus `"a b c"`, prefix length 2,
`Generate 5` returns `"a b c"` with 3 tokens, between 2 and `max 2 5`. -/
theorem C3_witness :
    (Build (NewChain 2) ('a' :: ' ' :: 'b' :: ' ' :: 'c' :: [])).map
      (fun c => Generate c (fun _ => 0) 5) =
      some (GenResult.ok ('a' :: ' ' :: 'b' :: ' ' :: 'c' :: [])) ∧
    2 ≤ (splitOnChar delim ('a' :: ' ' :: 'b' :: ' ' :: 'c' :: [])).length ∧
    (splitOnChar delim ('a' :: ' ' :: 'b' :: ' ' :: 'c' :: [])).length ≤ max 2 5 := by
  have hb : Build (NewChain 2) ('a' :: ' ' :: 'b' :: ' ' :: 'c' :: []) =
      some ((Build (NewChain 2) ('a' :: ' ' :: 'b' :: ' ' :: 'c' :: [])).get (by rfl)) :=
    (Option.some_get (by rfl)).symm
  obtain ⟨phrase, hgen, hlo, hhi⟩ := C3_amended_generate_bounds 2
    ('a' :: ' ' :: 'b' :: ' ' :: 'c' :: [])
    ((Build (NewChain 2) ('a' :: ' ' :: 'b' :: ' ' :: 'c' :: [])).get (by rfl)) hb
    (by omega) (by decide) (fun _ => 0) 5
  have heval : Generate
      ((Build (NewChain 2) ('a' :: ' ' :: 'b' :: ' ' :: 'c' :: [])).get (by rfl))
      (fun _ => 0) 5 = GenResult.ok ('a' :: ' ' :: 'b' :: ' ' :: 'c' :: []) := by decide
  have hc := hgen.symm.trans heval
  injection hc with hc'
  subst hc'
  refine ⟨?_, hlo, hhi⟩
  rw [hb]
  show some (Generate
    ((Build (NewChain 2) ('a' :: ' ' :: 'b' :: ' ' :: 'c' :: [])).get (by rfl))
    (fun _ => 0) 5) = some (GenResult.ok ('a' :: ' ' :: 'b' :: ' ' :: 'c' :: []))
  rw [hgen]

/-- C9: `Build` never resets chain state: a second `Build` adds the new
corpus tokens into the existing indexes and appends to the existing `sp`
and to every transition list, keeping the prefix length.  Consequently a
position recorded by the first build can denote a different token
afterwards: concretely, after building from `"b c"` with prefix length 1
the entry `1` in `chain["b"]` denotes `"c"`, and after a second build from
`"a b"` the same stored entry `1` denotes `"b"`. -/
theorem C9_build_never_resets (c : Chain) (input : List Char) (c' : Chain)
    (hb : Build c input = some c') :
    (∀ t ∈ c.tokensIdx.tokens, t ∈ c'.tokensIdx.tokens) ∧
    (∀ t ∈ c.startingPrefixIdx.tokens, t ∈ c'.startingPrefixIdx.tokens) ∧
    (∃ r, c'.sp = c.sp ++ r) ∧
    (∀ p, ∃ r, c'.chain p = c.chain p ++ r) ∧
    c'.prefixLength = c.prefixLength ∧
    ((Build (NewChain 1) ('b' :: ' ' :: 'c' :: [])).bind (fun c1 =>
      (Build c1 ('a' :: ' ' :: 'b' :: [])).map (fun c2 =>
        (c1.chain ('b' :: []), c1.tokensIdx.Get 1, c2.chain ('b' :: []),
          c2.tokensIdx.Get 1)))) =
      some ([1], some ('c' :: []), [1], some ('b' :: [])) := by
  obtain ⟨hT, hS, hpl, hsp, hch⟩ := buildChainLines_extends hb
  refine ⟨?_, ?_, hsp, hch, hpl, by decide⟩
  · intro t ht
    rw [hT]
    exact mem_foldl_addTokens_of_mem ht
  · intro t ht
    rw [hS]
    exact mem_foldl_addPfx_of_mem ht

/-- Witness for C9: a concrete second build on an already-built chain keeps
the old token and preserves the prefix length. -/
theorem C9_witness :
    ('b' :: []) ∈ (((Build ((Build (NewChain 1) ('b' :: ' ' :: 'c' :: [])).get (by rfl))
      ('a' :: ' ' :: 'b' :: [])).get (by rfl)).tokensIdx.tokens) ∧
    ((Build ((Build (NewChain 1) ('b' :: ' ' :: 'c' :: [])).get (by rfl))
      ('a' :: ' ' :: 'b' :: [])).get (by rfl)).prefixLength =
    ((Build (NewChain 1) ('b' :: ' ' :: 'c' :: [])).get (by rfl)).prefixLength := by
  have h := C9_build_never_resets
    ((Build (NewChain 1) ('b' :: ' ' :: 'c' :: [])).get (by rfl))
    ('a' :: ' ' :: 'b' :: [])
    ((Build ((Build (NewChain 1) ('b' :: ' ' :: 'c' :: [])).get (by rfl))
      ('a' :: ' ' :: 'b' :: [])).get (by rfl))
    (Option.some_get (by rfl)).symm
  exact ⟨h.1 ('b' :: []) (by decide), h.2.2.2.2.1⟩

/-- C10: on a successfully built chain with prefix length at least 1, every
`sp` entry points at a stored starting prefix that splits on the delimiter
into exactly `prefixLength` tokens (tokens never contain the delimiter,
being split from lines on it), so `Generate`'s "sentence must begin with at
least N tokens" error branch is unreachable. -/
theorem C10_error_branch_unreachable (pl : Nat) (input : List Char) (c' : Chain)
    (hb : Build (NewChain pl) input = some c') (hpl : 1 ≤ pl) :
    (∀ v ∈ c'.sp, ∃ q, c'.startingPrefixIdx.Get v = some q ∧
      (splitOnChar delim q).length = pl) ∧
    ∀ rng : Nat → Nat, ∀ l : Nat, Generate c' rng l ≠ GenResult.error := by
  have hq := built_sp_valid hb hpl
  have hpl' : c'.prefixLength = pl := (Build_fresh pl input hb).1
  refine ⟨fun v hv => ?_, fun rng l => ?_⟩
  · obtain ⟨q, ha, hc, _⟩ := hq v hv
    exact ⟨q, ha, hc⟩
  · apply Generate_ne_error
    intro v hv
    obtain ⟨q, ha, hc, _⟩ := hq v hv
    exact ⟨q, ha, by rw [hpl']; exact hc⟩

/-- Witness for C10 at a concrete corpus and call. -/
theorem C10_witness :
    (Build (NewChain 2) ('a' :: ' ' :: 'b' :: ' ' :: 'c' :: [])).map
      (fun c' => Generate c' (fun _ => 0) 0) ≠ some GenResult.error := by
  have h1 : (Build (NewChain 2) ('a' :: ' ' :: 'b' :: ' ' :: 'c' :: [])).isSome = true :=
    by rfl
  have hb := (Option.some_get h1).symm
  have hne := (C10_error_branch_unreachable 2 ('a' :: ' ' :: 'b' :: ' ' :: 'c' :: [])
    ((Build (NewChain 2) ('a' :: ' ' :: 'b' :: ' ' :: 'c' :: [])).get h1) hb
    (by omega)).2 (fun _ => 0) 0
  rw [hb]
  intro hcontra
  apply hne
  exact Option.some.inj hcontra

/-- C6: after `Build`, for every prefix string `p` and token `t`, the number
of occurrences of `t`'s token-index position in the transition list
`chain[p]` equals the number of sliding-window occurrences in the corpus
where the `prefixLength` tokens joined as `p` are immediately followed by
`t` — frequency is encoded by repetition. -/
theorem C6_transition_counts (pl : Nat) (input : List Char) (c' : Chain)
    (hb : Build (NewChain pl) input = some c') (p t : Token) :
    (c'.chain p).count (c'.tokensIdx.Find t) = (corpusWindows pl input).count (p, t) := by
  obtain ⟨hpl', hT, hS, hsp, hch⟩ := Build_fresh pl input hb
  have hTpair : (buildTokenIndex (NewChain pl) input).tokensIdx.tokens.Pairwise TLt :=
    pairwise_foldl_addTokens List.Pairwise.nil
  rw [hch p, hT]
  rw [List.count_eq_countP, List.countP_map, List.countP_eq_length_filter,
    List.filter_filter]
  rw [List.count_eq_countP, List.countP_eq_length_filter]
  congr 1
  apply List.filter_congr
  intro w hw
  obtain ⟨ts, hts, hsnd⟩ := corpusWindows_snd_mem hw
  have hw2T : w.2 ∈ (buildTokenIndex (NewChain pl) input).tokensIdx.tokens :=
    mem_foldl_addTokens hts hsnd
  by_cases h1 : w.1 = p
  · by_cases h2 : w.2 = t
    · simp [Function.comp, h1, h2, Prod.ext_iff]
    · have hne : (buildTokenIndex (NewChain pl) input).tokensIdx.Find w.2 ≠
          (buildTokenIndex (NewChain pl) input).tokensIdx.Find t := by
        by_cases ht : t ∈ (buildTokenIndex (NewChain pl) input).tokensIdx.tokens
        · exact fun he => h2 (Find_inj hTpair hw2T ht he)
        · rw [Find_of_not_mem ht]
          exact Find_ne_neg_one hTpair hw2T
      simp [Function.comp, h1, h2, hne, Prod.ext_iff]
  · simp [Function.comp, h1, Prod.ext_iff]

/-- Witness for C6: corpus `"a b\na b"`, prefix length 1; the window
`("a", "b")` occurs twice, and position of `"b"` occurs twice in
`chain["a"]`. -/
theorem C6_witness :
    (Build (NewChain 1) ('a' :: ' ' :: 'b' :: '\n' :: 'a' :: ' ' :: 'b' :: [])).map
      (fun c => (c.chain ('a' :: [])).count (c.tokensIdx.Find ('b' :: []))) = some 2 ∧
    (corpusWindows 1 ('a' :: ' ' :: 'b' :: '\n' :: 'a' :: ' ' :: 'b' :: [])).count
      (('a' :: []), ('b' :: [])) = 2 := by
  have hb : Build (NewChain 1) ('a' :: ' ' :: 'b' :: '\n' :: 'a' :: ' ' :: 'b' :: []) =
      some ((Build (NewChain 1)
        ('a' :: ' ' :: 'b' :: '\n' :: 'a' :: ' ' :: 'b' :: [])).get (by rfl)) :=
    (Option.some_get (by rfl)).symm
  have hcount := C6_transition_counts 1
    ('a' :: ' ' :: 'b' :: '\n' :: 'a' :: ' ' :: 'b' :: [])
    ((Build (NewChain 1) ('a' :: ' ' :: 'b' :: '\n' :: 'a' :: ' ' :: 'b' :: [])).get
      (by rfl)) hb ('a' :: []) ('b' :: [])
  constructor
  · rw [hb]
    show some ((((Build (NewChain 1)
        ('a' :: ' ' :: 'b' :: '\n' :: 'a' :: ' ' :: 'b' :: [])).get (by rfl)).chain
          ('a' :: [])).count
      (((Build (NewChain 1) ('a' :: ' ' :: 'b' :: '\n' :: 'a' :: ' ' :: 'b' :: [])).get
        (by rfl)).tokensIdx.Find ('b' :: []))) = some 2
    rw [hcount]
    decide
  · decide
